import Mathlib

/-!
Verification of the AptosDB pruner subsystem: the `EventStorePruner` and the
`WriteSetPruner` from `storage/aptosdb/src/pruner/`.  Versions are `u64`
values, embedded as `Nat` with explicit `% 2 ^ 64` wrap-around where the code
performs machine subtraction.  The external collaborators (the schemadb DB,
the `EventStore`/`TransactionStore` deletion routines and the metrics gauge)
are modelled as explicit environments: fallible operations return `Except`.
-/

namespace AptosPruner

/-- Wrap-around subtraction on `u64` values (both arguments below `2 ^ 64`):
the value of Rust's `a - b` on `u64` in release mode. -/
def sub64 (a b : Nat) : Nat :=
  (2 ^ 64 + a - b) % 2 ^ 64

/-- Reinterpretation of a `u64` value as an `i64` (Rust's `as i64` cast),
used when publishing the progress gauge. -/
def i64OfU64 (v : Nat) : Int :=
  if v % 2 ^ 64 < 2 ^ 63 then ((v % 2 ^ 64 : Nat) : Int) else ((v % 2 ^ 64 : Nat) : Int) - 2 ^ 64

/-- The mutable progress fields shared by both pruners: `target_version` and
`least_readable_version` (both `AtomicVersion` in the source). -/
structure PrunerState where
  target_version : Nat
  least_readable_version : Nat
deriving DecidableEq, Repr

/-- Modelled from the spec: `DBPruner::get_currrent_batch_target`
(`pruner/db_pruner.rs`, not among the provided sources):
"Computes `current_batch_target = min(LeastReadableVersion + max_versions,
TargetVersion)`". -/
def getCurrrentBatchTarget (s : PrunerState) (maxVersions : Nat) : Nat :=
  min (s.least_readable_version + maxVersions) s.target_version

/-- The `set_target_version` accessor shared by both pruners. -/
def setTargetVersion (s : PrunerState) (t : Nat) : PrunerState :=
  { s with target_version := t }

/-- One write to the external progress gauge
(`DIEM_PRUNER_LEAST_READABLE_VERSION.with_label_values(&[label]).set(value)`). -/
structure GaugeWrite where
  label : String
  value : Int
deriving DecidableEq, Repr

/-- `EVENT_STORE_PRUNER_NAME` from `event_store_pruner.rs`. -/
def EVENT_STORE_PRUNER_NAME : String := "event store pruner"

/-- `TRANSACTION_STORE_PRUNER_NAME` from `write_set_pruner.rs`. -/
def TRANSACTION_STORE_PRUNER_NAME : String := "transaction store pruner"

/-- `EventStorePruner::name`. -/
def EventStorePruner.name : String := EVENT_STORE_PRUNER_NAME

/-- `WriteSetPruner::name`. -/
def WriteSetPruner.name : String := TRANSACTION_STORE_PRUNER_NAME

/-- A contract event as far as the pruner is concerned: its event key
(opaque, embedded as `Nat`) and its sequence number. -/
structure ContractEvent where
  key : Nat
  sequence_number : Nat
deriving DecidableEq, Repr

/-- One pending deletion enqueued into the event-store `SchemaBatch`. -/
inductive EventBatchOp where
  | deleteEvent (key : Nat) (version : Nat)
  | deleteEventByKey (key : Nat) (minSeq maxSeq : Nat)
  | deleteAccumulatorEntry (version : Nat)
  | deleteSchemaEntry (version : Nat)
deriving DecidableEq, Repr

/-- Number of schema entries a pending event-store deletion removes
(a per-key operation covers the closed sequence range `[minSeq, maxSeq]`). -/
def EventBatchOp.deletionCount : EventBatchOp → Nat
  | .deleteEvent _ _ => 1
  | .deleteEventByKey _ lo hi => hi + 1 - lo
  | .deleteAccumulatorEntry _ => 1
  | .deleteSchemaEntry _ => 1

/-- One pending deletion enqueued into the write-set `SchemaBatch`:
a single call covering the half-open version range `[start, stop)`. -/
inductive WriteSetOp where
  | deleteRange (start stop : Nat)
deriving DecidableEq, Repr

/-- The versions a pending write-set deletion removes. -/
def WriteSetOp.deletedVersions : WriteSetOp → List Nat
  | .deleteRange start stop => List.range' start (stop - start)

/-- The external collaborators of `EventStorePruner::prune`: the candidate
iterator and the four fallible `EventStore` deletion routines plus the
atomic `DB::write_schemas` commit.  The iterator yields, per version,
the list of events at that version. -/
structure EventStoreEnv where
  getEventsByVersionIter : Nat → Nat → Except String (List (List ContractEvent))
  pruneEventsByVersion : List Nat → Nat → Nat → List EventBatchOp → Except String (List EventBatchOp)
  pruneEventsByKey : List (Nat × Nat × Nat) → List EventBatchOp → Except String (List EventBatchOp)
  pruneEventAccumulator : Nat → Nat → List EventBatchOp → Except String (List EventBatchOp)
  pruneEventSchema : Nat → Nat → List EventBatchOp → Except String (List EventBatchOp)
  writeSchemas : List EventBatchOp → Except String Unit

/-- The external collaborators of `WriteSetPruner::prune`. -/
structure WriteSetEnv where
  pruneWriteSet : Nat → Nat → List WriteSetOp → Except String (List WriteSetOp)
  writeSchemas : List WriteSetOp → Except String Unit

/-- The per-key accumulation step of `EventStorePruner::prune` (lines 54-66):
on the first occurrence of a key the pair is `(seq, seq)`; on a later
occurrence the stored first component is kept and the second component is
overwritten with the sequence number just seen. -/
def updateSequenceRange (m : Nat → Option (Nat × Nat)) (event : ContractEvent) :
    Nat → Option (Nat × Nat) :=
  fun k =>
    if k = event.key then
      match m event.key with
      | some entry => some (entry.1, event.sequence_number)
      | none => some (event.sequence_number, event.sequence_number)
    else m k

/-- The `sequence_range_by_event_keys` map built by `EventStorePruner::prune`
(lines 52-66), as a function from event key to the accumulated pair. -/
def sequenceRangeByEventKeys (events : List ContractEvent) : Nat → Option (Nat × Nat) :=
  events.foldl updateSequenceRange (fun _ => none)

/-- The contents of the `sequence_range_by_event_keys` map materialized as a
list of `(key, first, last)` triples, one per distinct candidate key
(the argument handed to `EventStore::prune_events_by_key`). -/
def sequenceRangesList (events : List ContractEvent) : List (Nat × Nat × Nat) :=
  ((events.map ContractEvent.key).dedup).filterMap fun k =>
    (sequenceRangeByEventKeys events k).map fun r => (k, r)

/-- `EventStorePruner::record_progress` (lines 108-114): stores the new
low-water mark and emits one gauge write labelled `"event_store"`. -/
def EventStorePruner.recordProgress (s : PrunerState) (leastReadableVersion : Nat) :
    PrunerState × GaugeWrite :=
  ({ s with least_readable_version := leastReadableVersion },
   ⟨"event_store", i64OfU64 leastReadableVersion⟩)

/-- `WriteSetPruner::record_progress` (lines 60-66): stores the new
low-water mark and emits one gauge write labelled `"write_set"`. -/
def WriteSetPruner.recordProgress (s : PrunerState) (leastReadableVersion : Nat) :
    PrunerState × GaugeWrite :=
  ({ s with least_readable_version := leastReadableVersion },
   ⟨"write_set", i64OfU64 leastReadableVersion⟩)

/-- `EventStorePruner::get_pruning_candidate_events` (lines 127-136): asks the
iterator for `(end - start) as usize` versions starting at `start` — the
subtraction is machine `u64` subtraction, hence `sub64` — and flattens the
per-version event lists. -/
def EventStorePruner.getPruningCandidateEvents (env : EventStoreEnv) (start stop : Nat) :
    Except String (List ContractEvent) :=
  match env.getEventsByVersionIter start (sub64 stop start) with
  | .error e => .error e
  | .ok perVersion => .ok perVersion.flatten

/-- `EventStorePruner::prune` (lines 34-87): scan candidates, collect the
touched keys, enqueue the four families of deletions into one batch, commit
it atomically, and only then record progress.  Any failure propagates
immediately and leaves the state untouched. -/
def EventStorePruner.prune (env : EventStoreEnv) (s : PrunerState) (maxVersions : Nat) :
    Except String (Nat × List EventBatchOp) × PrunerState :=
  match EventStorePruner.getPruningCandidateEvents env s.least_readable_version
      (getCurrrentBatchTarget s maxVersions) with
  | .error e => (.error e, s)
  | .ok candidateEvents =>
    match env.pruneEventsByVersion ((candidateEvents.map ContractEvent.key).dedup)
        s.least_readable_version (getCurrrentBatchTarget s maxVersions) [] with
    | .error e => (.error e, s)
    | .ok batch1 =>
      match env.pruneEventsByKey (sequenceRangesList candidateEvents) batch1 with
      | .error e => (.error e, s)
      | .ok batch2 =>
        match env.pruneEventAccumulator s.least_readable_version
            (getCurrrentBatchTarget s maxVersions) batch2 with
        | .error e => (.error e, s)
        | .ok batch3 =>
          match env.pruneEventSchema s.least_readable_version
              (getCurrrentBatchTarget s maxVersions) batch3 with
          | .error e => (.error e, s)
          | .ok batch4 =>
            match env.writeSchemas batch4 with
            | .error e => (.error e, s)
            | .ok _ =>
              (.ok (getCurrrentBatchTarget s maxVersions, batch4),
               (EventStorePruner.recordProgress s (getCurrrentBatchTarget s maxVersions)).1)

/-- `WriteSetPruner::prune` (lines 26-40): one deletion call for the batch
range, one atomic commit, then record progress. -/
def WriteSetPruner.prune (env : WriteSetEnv) (s : PrunerState) (maxVersions : Nat) :
    Except String (Nat × List WriteSetOp) × PrunerState :=
  match env.pruneWriteSet s.least_readable_version (getCurrrentBatchTarget s maxVersions) [] with
  | .error e => (.error e, s)
  | .ok batch =>
    match env.writeSchemas batch with
    | .error e => (.error e, s)
    | .ok _ =>
      (.ok (getCurrrentBatchTarget s maxVersions, batch),
       (WriteSetPruner.recordProgress s (getCurrrentBatchTarget s maxVersions)).1)

/-- Modelled from the spec: `EventStore::prune_events_by_version` (not among
the provided sources): "Enqueue deletion, from the primary log, of all
versions in `[start, end)` restricted to the touched keys." -/
def pruneEventsByVersionModel (keys : List Nat) (start stop : Nat)
    (batch : List EventBatchOp) : Except String (List EventBatchOp) :=
  .ok (batch ++ keys.flatMap fun k =>
    (List.range' start (stop - start)).map (EventBatchOp.deleteEvent k))

/-- Modelled from the spec: `EventStore::prune_events_by_key` (not among the
provided sources): "Enqueue deletion of the per-key secondary-index entries
covering each key's computed `[min_seq, max_seq]`." -/
def pruneEventsByKeyModel (ranges : List (Nat × Nat × Nat))
    (batch : List EventBatchOp) : Except String (List EventBatchOp) :=
  .ok (batch ++ ranges.map fun r => EventBatchOp.deleteEventByKey r.1 r.2.1 r.2.2)

/-- Modelled from the spec: `EventStore::prune_event_accumulator` (not among
the provided sources): "Enqueue deletion, from the accumulator structure, of
all accumulator entries for versions in `[start, end)`." -/
def pruneEventAccumulatorModel (start stop : Nat)
    (batch : List EventBatchOp) : Except String (List EventBatchOp) :=
  .ok (batch ++ (List.range' start (stop - start)).map EventBatchOp.deleteAccumulatorEntry)

/-- Modelled from the spec: `EventStore::prune_event_schema` (not among the
provided sources): "Enqueue deletion, from the version-keyed schema index, of
all entries for versions in `[start, end)`." -/
def pruneEventSchemaModel (start stop : Nat)
    (batch : List EventBatchOp) : Except String (List EventBatchOp) :=
  .ok (batch ++ (List.range' start (stop - start)).map EventBatchOp.deleteSchemaEntry)

/-- The event-store environment induced by a store that holds, for each
version, the list of events emitted at that version; all deletion routines
follow the spec model and the commit succeeds. -/
def eventEnvOfStore (store : Nat → List ContractEvent) : EventStoreEnv where
  getEventsByVersionIter := fun start count => .ok ((List.range' start count).map store)
  pruneEventsByVersion := pruneEventsByVersionModel
  pruneEventsByKey := pruneEventsByKeyModel
  pruneEventAccumulator := pruneEventAccumulatorModel
  pruneEventSchema := pruneEventSchemaModel
  writeSchemas := fun _ => .ok ()

/-- Modelled from the spec: `TransactionStore::prune_write_set` (not among
the provided sources): "enqueue a single deletion call covering
`[start, end)` against the write-set log". -/
def pruneWriteSetModel (start stop : Nat) (batch : List WriteSetOp) :
    Except String (List WriteSetOp) :=
  .ok (batch ++ [WriteSetOp.deleteRange start stop])

/-- The write-set environment whose deletion routine follows the spec model
and whose commit succeeds. -/
def writeSetDefaultEnv : WriteSetEnv where
  pruneWriteSet := pruneWriteSetModel
  writeSchemas := fun _ => .ok ()

/-- Whether a fallible step reported an error. -/
def exceptFailed {ε α : Type} : Except ε α → Bool
  | .error _ => true
  | .ok _ => false

/-- Lexicographic comparison of `EventSchema` keys `(version, index)`
(big-endian key encoding makes RocksDB order coincide with it). -/
def lexLe (a b : Nat × Nat) : Bool :=
  decide (a.1 < b.1) || (decide (a.1 = b.1) && decide (a.2 ≤ b.2))

/-- Modelled from the spec: the schemadb iterator's `seek_to_first` followed
by `next` over the event-store primary schema (schemadb is not among the
provided sources): it yields the lowest-ordered entry of the schema, or
nothing when the schema is empty.  The schema contents are embedded as an
unordered list of `(key, value)` entries. -/
def seekToFirstEventEntry {V : Type} (entries : List ((Nat × Nat) × V)) :
    Option ((Nat × Nat) × V) :=
  match entries with
  | [] => none
  | e :: rest => some (rest.foldl (fun acc x => if lexLe acc.1 x.1 then acc else x) e)

/-- Modelled from the spec: the schemadb iterator's `seek_to_first` followed
by `next` over the write-set primary schema, whose key is the version
itself. -/
def seekToFirstWriteSetEntry {V : Type} (entries : List (Nat × V)) : Option (Nat × V) :=
  match entries with
  | [] => none
  | e :: rest => some (rest.foldl (fun acc x => if Nat.ble acc.1 x.1 then acc else x) e)

/-- `EventStorePruner::initialize_least_readable_version` (lines 89-94):
seek to the first `EventSchema` entry; an empty schema yields `0`, otherwise
the version component `key.0` of the entry's key. -/
def EventStorePruner.initializeLeastReadableVersion {V : Type}
    (entries : List ((Nat × Nat) × V)) : Except String Nat :=
  .ok (match seekToFirstEventEntry entries with
    | none => 0
    | some (key, _) => key.1)

/-- `WriteSetPruner::initialize_least_readable_version` (lines 42-47):
seek to the first `WriteSetSchema` entry; an empty schema yields `0`,
otherwise the version that is the entry's key. -/
def WriteSetPruner.initializeLeastReadableVersion {V : Type}
    (entries : List (Nat × V)) : Except String Nat :=
  .ok (match seekToFirstWriteSetEntry entries with
    | none => 0
    | some (version, _) => version)

/-- Runs a list of driver steps against the event-store pruner: each step
sets the target version and then calls `prune` once, threading the state. -/
def runEventPrunes (env : EventStoreEnv) (s : PrunerState) :
    List (Nat × Nat) → PrunerState
  | [] => s
  | (tv, mv) :: rest =>
    runEventPrunes env ((EventStorePruner.prune env (setTargetVersion s tv) mv).2) rest

/-- Runs a list of driver steps against the write-set pruner. -/
def runWriteSetPrunes (env : WriteSetEnv) (s : PrunerState) :
    List (Nat × Nat) → PrunerState
  | [] => s
  | (tv, mv) :: rest =>
    runWriteSetPrunes env ((WriteSetPruner.prune env (setTargetVersion s tv) mv).2) rest

/-- A driver run is valid when every step's target version is at least the
low-water mark current when the step is issued (the documented invariant
`LeastReadableVersion ≤ TargetVersion`). -/
def validEventRun (env : EventStoreEnv) (s : PrunerState) : List (Nat × Nat) → Bool
  | [] => true
  | (tv, mv) :: rest =>
    Nat.ble s.least_readable_version tv &&
      validEventRun env ((EventStorePruner.prune env (setTargetVersion s tv) mv).2) rest

/-- Validity of a driver run against the write-set pruner. -/
def validWriteSetRun (env : WriteSetEnv) (s : PrunerState) : List (Nat × Nat) → Bool
  | [] => true
  | (tv, mv) :: rest =>
    Nat.ble s.least_readable_version tv &&
      validWriteSetRun env ((WriteSetPruner.prune env (setTargetVersion s tv) mv).2) rest

section ShapeLemmas

/-- Control-flow dichotomy of `EventStorePruner.prune`: either some step
failed, the error is returned and the state is untouched, or every step
succeeded, the batch target is returned together with the committed batch
and the only state change is the low-water-mark update. -/
theorem event_prune_shape (env : EventStoreEnv) (s : PrunerState) (mv : Nat) :
    ((∃ e, (EventStorePruner.prune env s mv).1 = Except.error e) ∧
      (EventStorePruner.prune env s mv).2 = s) ∨
    (∃ b, EventStorePruner.prune env s mv =
      (Except.ok (getCurrrentBatchTarget s mv, b),
       { s with least_readable_version := getCurrrentBatchTarget s mv })) := by
  unfold EventStorePruner.prune
  repeat' split
  · left; exact ⟨⟨_, rfl⟩, rfl⟩
  · left; exact ⟨⟨_, rfl⟩, rfl⟩
  · left; exact ⟨⟨_, rfl⟩, rfl⟩
  · left; exact ⟨⟨_, rfl⟩, rfl⟩
  · left; exact ⟨⟨_, rfl⟩, rfl⟩
  · left; exact ⟨⟨_, rfl⟩, rfl⟩
  · right; exact ⟨_, rfl⟩

/-- Control-flow dichotomy of `WriteSetPruner.prune`. -/
theorem write_set_prune_shape (env : WriteSetEnv) (s : PrunerState) (mv : Nat) :
    ((∃ e, (WriteSetPruner.prune env s mv).1 = Except.error e) ∧
      (WriteSetPruner.prune env s mv).2 = s) ∨
    (∃ b, WriteSetPruner.prune env s mv =
      (Except.ok (getCurrrentBatchTarget s mv, b),
       { s with least_readable_version := getCurrrentBatchTarget s mv })) := by
  unfold WriteSetPruner.prune
  repeat' split
  · left; exact ⟨⟨_, rfl⟩, rfl⟩
  · left; exact ⟨⟨_, rfl⟩, rfl⟩
  · right; exact ⟨_, rfl⟩

end ShapeLemmas

section Claim2

/-- An event-store environment whose atomic commit fails. -/
def failingEventEnv : EventStoreEnv :=
  { eventEnvOfStore (fun _ => []) with writeSchemas := fun _ => .error "commit failed" }

/-- A write-set environment whose atomic commit fails. -/
def failingWriteSetEnv : WriteSetEnv :=
  { writeSetDefaultEnv with writeSchemas := fun _ => .error "commit failed" }

/-- C2: if any fallible step of `prune` fails, the call returns the error
before `record_progress` is reached and the pruner state — in particular
`least_readable_version()` — is exactly what it was before the call, for
both `EventStorePruner` and `WriteSetPruner`. -/
theorem prune_error_preserves_state (envE : EventStoreEnv) (envW : WriteSetEnv)
    (sE sW : PrunerState) (mvE mvW : Nat)
    (hE : exceptFailed (EventStorePruner.prune envE sE mvE).1 = true)
    (hW : exceptFailed (WriteSetPruner.prune envW sW mvW).1 = true) :
    (EventStorePruner.prune envE sE mvE).2 = sE ∧
    (EventStorePruner.prune envE sE mvE).2.least_readable_version =
      sE.least_readable_version ∧
    (WriteSetPruner.prune envW sW mvW).2 = sW ∧
    (WriteSetPruner.prune envW sW mvW).2.least_readable_version =
      sW.least_readable_version := by
  have hEcase : (EventStorePruner.prune envE sE mvE).2 = sE := by
    rcases event_prune_shape envE sE mvE with ⟨_, hstate⟩ | ⟨b, hok⟩
    · exact hstate
    · rw [hok] at hE; simp [exceptFailed] at hE
  have hWcase : (WriteSetPruner.prune envW sW mvW).2 = sW := by
    rcases write_set_prune_shape envW sW mvW with ⟨_, hstate⟩ | ⟨b, hok⟩
    · exact hstate
    · rw [hok] at hW; simp [exceptFailed] at hW
  exact ⟨hEcase, by rw [hEcase], hWcase, by rw [hWcase]⟩

/-- Witness for C2: a concrete failing commit on each pruner leaves each
concrete starting state untouched. -/
theorem prune_error_preserves_state_witness :
    (EventStorePruner.prune failingEventEnv ⟨9, 4⟩ 3).2 = (⟨9, 4⟩ : PrunerState) ∧
    (EventStorePruner.prune failingEventEnv ⟨9, 4⟩ 3).2.least_readable_version =
      (⟨9, 4⟩ : PrunerState).least_readable_version ∧
    (WriteSetPruner.prune failingWriteSetEnv ⟨7, 2⟩ 5).2 = (⟨7, 2⟩ : PrunerState) ∧
    (WriteSetPruner.prune failingWriteSetEnv ⟨7, 2⟩ 5).2.least_readable_version =
      (⟨7, 2⟩ : PrunerState).least_readable_version :=
  prune_error_preserves_state failingEventEnv failingWriteSetEnv ⟨9, 4⟩ ⟨7, 2⟩ 3 5 rfl rfl

end Claim2

section Claim3

/-- C3: a successful `prune(max_versions)` call returns
`min(LeastReadableVersion + max_versions, TargetVersion)`, publishes it as
the new low-water mark, advances by at most `max_versions`, and never
exceeds the target version — for both pruners. -/
theorem prune_returns_batch_target (envE : EventStoreEnv) (envW : WriteSetEnv)
    (sE sW : PrunerState) (mvE mvW vE vW : Nat)
    (bE : List EventBatchOp) (bW : List WriteSetOp)
    (hE : (EventStorePruner.prune envE sE mvE).1 = Except.ok (vE, bE))
    (hW : (WriteSetPruner.prune envW sW mvW).1 = Except.ok (vW, bW))
    (_hiE : sE.least_readable_version ≤ sE.target_version)
    (_hiW : sW.least_readable_version ≤ sW.target_version) :
    vE = min (sE.least_readable_version + mvE) sE.target_version ∧
    (EventStorePruner.prune envE sE mvE).2.least_readable_version = vE ∧
    vE - sE.least_readable_version ≤ mvE ∧ vE ≤ sE.target_version ∧
    vW = min (sW.least_readable_version + mvW) sW.target_version ∧
    (WriteSetPruner.prune envW sW mvW).2.least_readable_version = vW ∧
    vW - sW.least_readable_version ≤ mvW ∧ vW ≤ sW.target_version := by
  have hEfacts : vE = min (sE.least_readable_version + mvE) sE.target_version ∧
      (EventStorePruner.prune envE sE mvE).2.least_readable_version = vE := by
    rcases event_prune_shape envE sE mvE with ⟨⟨e, he⟩, _⟩ | ⟨b, hok⟩
    · rw [he] at hE; simp at hE
    · rw [hok] at hE
      simp only [Except.ok.injEq, Prod.mk.injEq] at hE
      obtain ⟨hv, _⟩ := hE
      refine ⟨hv ▸ rfl, ?_⟩
      rw [hok, ← hv]
  have hWfacts : vW = min (sW.least_readable_version + mvW) sW.target_version ∧
      (WriteSetPruner.prune envW sW mvW).2.least_readable_version = vW := by
    rcases write_set_prune_shape envW sW mvW with ⟨⟨e, he⟩, _⟩ | ⟨b, hok⟩
    · rw [he] at hW; simp at hW
    · rw [hok] at hW
      simp only [Except.ok.injEq, Prod.mk.injEq] at hW
      obtain ⟨hv, _⟩ := hW
      refine ⟨hv ▸ rfl, ?_⟩
      rw [hok, ← hv]
  obtain ⟨hv1, hv2⟩ := hEfacts
  obtain ⟨hw1, hw2⟩ := hWfacts
  refine ⟨hv1, hv2, ?_, ?_, hw1, hw2, ?_, ?_⟩ <;> omega

/-- Witness for C3: the event pruner at low-water 0, target 10 with step 3
advances to 3; the write-set pruner at low-water 0, target 10 with step 100
is clamped to 10. -/
theorem prune_returns_batch_target_witness :
    (3 : Nat) = min (0 + 3) 10 ∧
    (EventStorePruner.prune (eventEnvOfStore (fun _ => []))
      ⟨10, 0⟩ 3).2.least_readable_version = 3 ∧
    (3 : Nat) - 0 ≤ 3 ∧ (3 : Nat) ≤ 10 ∧
    (10 : Nat) = min (0 + 100) 10 ∧
    (WriteSetPruner.prune writeSetDefaultEnv ⟨10, 0⟩ 100).2.least_readable_version = 10 ∧
    (10 : Nat) - 0 ≤ 100 ∧ (10 : Nat) ≤ 10 :=
  prune_returns_batch_target (eventEnvOfStore (fun _ => [])) writeSetDefaultEnv
    ⟨10, 0⟩ ⟨10, 0⟩ 3 100 3 10
    [EventBatchOp.deleteAccumulatorEntry 0, EventBatchOp.deleteAccumulatorEntry 1,
     EventBatchOp.deleteAccumulatorEntry 2, EventBatchOp.deleteSchemaEntry 0,
     EventBatchOp.deleteSchemaEntry 1, EventBatchOp.deleteSchemaEntry 2]
    [WriteSetOp.deleteRange 0 10] rfl rfl (by decide) (by decide)

end Claim3

section Claim1

/-- The effect of one `updateSequenceRange` step at the key it concerns. -/
def rangeStep (acc : Option (Nat × Nat)) (e : ContractEvent) : Option (Nat × Nat) :=
  match acc with
  | some entry => some (entry.1, e.sequence_number)
  | none => some (e.sequence_number, e.sequence_number)

/-- The sequence numbers of the candidate events carrying key `k`, in batch
order. -/
def keySeqs (events : List ContractEvent) (k : Nat) : List Nat :=
  (events.filter fun e => decide (k = e.key)).map ContractEvent.sequence_number

theorem seqRange_eq_filter_fold :
    ∀ (events : List ContractEvent) (m : Nat → Option (Nat × Nat)) (k : Nat),
      events.foldl updateSequenceRange m k =
        (events.filter fun e => decide (k = e.key)).foldl rangeStep (m k) := by
  intro events
  induction events with
  | nil => intro m k; rfl
  | cons e rest ih =>
    intro m k
    rw [List.foldl_cons]
    by_cases hk : k = e.key
    · rw [List.filter_cons_of_pos (by simpa using hk), List.foldl_cons, ih]
      congr 1
      simp only [updateSequenceRange, rangeStep, ← hk, if_true, eq_self_iff_true]
    · rw [List.filter_cons_of_neg (by simpa using hk), ih]
      congr 1
      simp only [updateSequenceRange, if_neg hk]

theorem foldl_rangeStep_some :
    ∀ (es : List ContractEvent) (lo hi : Nat),
      es.foldl rangeStep (some (lo, hi)) =
        some (lo, (es.map ContractEvent.sequence_number).getLastD hi) := by
  intro es
  induction es with
  | nil => intro lo hi; rfl
  | cons e rest ih =>
    intro lo hi
    rw [List.foldl_cons]
    show rest.foldl rangeStep (some (lo, e.sequence_number)) = _
    rw [ih, List.map_cons, List.getLastD_cons]

/-- What the accumulation loop of lines 52-66 really computes per key: the
pair of the first-seen and the last-seen sequence number among the key's
candidate events, in batch order. -/
theorem seqRange_characterization (events : List ContractEvent) (k : Nat) :
    sequenceRangeByEventKeys events k =
      match events.filter fun e => decide (k = e.key) with
      | [] => none
      | e :: rest =>
        some (e.sequence_number,
          (rest.map ContractEvent.sequence_number).getLastD e.sequence_number) := by
  rw [sequenceRangeByEventKeys, seqRange_eq_filter_fold]
  cases hf : events.filter fun e => decide (k = e.key) with
  | nil => rfl
  | cons e rest =>
    rw [List.foldl_cons]
    show rest.foldl rangeStep (some (e.sequence_number, e.sequence_number)) = _
    rw [foldl_rangeStep_some]

theorem le_getLastD_of_pairwise (l : List Nat) (x : Nat) (h : x ∈ l)
    (hl : List.Pairwise (· ≤ ·) l) (d : Nat) : x ≤ l.getLastD d := by
  induction l generalizing d with
  | nil => cases h
  | cons a t ih =>
    rw [List.getLastD_cons]
    cases t with
    | nil => simp at h; simp [h, List.getLastD]
    | cons b u =>
      rcases List.mem_cons.mp h with rfl | hx
      · have := List.getLastD_mem_cons (b :: u) x
        rcases List.mem_cons.mp this with he | hm
        · omega
        · exact (List.pairwise_cons.mp hl).1 _ hm
      · exact ih hx (List.pairwise_cons.mp hl).2 a

/-- Counterexample to C1: for the candidate batch `[(key 0, seq 2),
(key 0, seq 1)]` — key 0 out of sequence order — the per-key pair handed to
the secondary-index deletion is `(2, 1)`, the first- and last-seen sequence
numbers, not the minimum and maximum `(1, 2)`. -/
theorem seq_range_not_min_max_counterexample :
    sequenceRangesList [⟨0, 2⟩, ⟨0, 1⟩] = [(0, 2, 1)] ∧
    keySeqs [⟨0, 2⟩, ⟨0, 1⟩] 0 = [2, 1] ∧
    sequenceRangeByEventKeys [⟨0, 2⟩, ⟨0, 1⟩] 0 = some (2, 1) ∧
    sequenceRangeByEventKeys [⟨0, 2⟩, ⟨0, 1⟩] 0 ≠ some (1, 2) := by
  refine ⟨by decide, by decide, by decide, by decide⟩

/-- C1 (amended): the per-key pair enqueued for secondary-index deletion is
the (first-seen, last-seen) sequence-number pair; whenever the key's
candidate events appear in non-decreasing sequence order — the assumption
stated in the source comment — that pair is the minimum and the maximum of
the key's candidate sequence numbers. -/
theorem seq_range_is_min_max_of_sorted (events : List ContractEvent) (k lo hi : Nat)
    (hsorted : List.Chain' (· ≤ ·) (keySeqs events k))
    (h : sequenceRangeByEventKeys events k = some (lo, hi)) :
    lo ∈ keySeqs events k ∧ hi ∈ keySeqs events k ∧
      ∀ x ∈ keySeqs events k, lo ≤ x ∧ x ≤ hi := by
  have hpw := List.chain'_iff_pairwise.mp hsorted
  rw [seqRange_characterization] at h
  cases hf : events.filter fun e => decide (k = e.key) with
  | nil => rw [hf] at h; cases h
  | cons e rest =>
    rw [hf] at h
    have hks : keySeqs events k =
        e.sequence_number :: rest.map ContractEvent.sequence_number := by
      rw [keySeqs, hf, List.map_cons]
    simp only [Option.some.injEq, Prod.mk.injEq] at h
    obtain ⟨hlo, hhi⟩ := h
    rw [hks] at hpw ⊢
    subst hlo
    constructor
    · exact List.mem_cons_self _ _
    constructor
    · rw [← hhi]
      exact List.getLastD_mem_cons _ _
    · intro x hx
      constructor
      · rcases List.mem_cons.mp hx with rfl | hx'
        · omega
        · exact (List.pairwise_cons.mp hpw).1 _ hx'
      · rw [← hhi, ← List.getLastD_cons]
        exact le_getLastD_of_pairwise _ x hx hpw 0

/-- Witness for the amended C1: on the sorted batch `[(key 0, seq 1),
(key 0, seq 2)]` the computed pair `(1, 2)` is the minimum and maximum. -/
theorem seq_range_is_min_max_of_sorted_witness :
    1 ∈ keySeqs [⟨0, 1⟩, ⟨0, 2⟩] 0 ∧ 2 ∈ keySeqs [⟨0, 1⟩, ⟨0, 2⟩] 0 ∧
      ∀ x ∈ keySeqs [⟨0, 1⟩, ⟨0, 2⟩] 0, 1 ≤ x ∧ x ≤ 2 :=
  seq_range_is_min_max_of_sorted [⟨0, 1⟩, ⟨0, 2⟩] 0 1 2
    (by rw [show keySeqs [⟨0, 1⟩, ⟨0, 2⟩] 0 = [1, 2] from rfl]
        exact List.chain'_cons.mpr ⟨by omega, List.chain'_singleton 2⟩)
    (by decide)

end Claim1

section Claim4

theorem foldl_choose_mem {α : Type} (le : α → α → Bool) :
    ∀ (rest : List α) (e : α),
      rest.foldl (fun acc x => if le acc x then acc else x) e ∈ e :: rest := by
  intro rest
  induction rest with
  | nil => intro e; exact List.mem_singleton.mpr rfl
  | cons r t ih =>
    intro e
    rw [List.foldl_cons]
    rcases List.mem_cons.mp (ih (if le e r then e else r)) with h | h
    · rw [h]
      by_cases hc : le e r <;> simp [hc]
    · exact List.mem_cons_of_mem _ (List.mem_cons_of_mem _ h)

theorem foldl_choose_le {α : Type} (le : α → α → Bool)
    (htot : ∀ a b, le a b = true ∨ le b a = true)
    (htrans : ∀ a b c, le a b = true → le b c = true → le a c = true) :
    ∀ (rest : List α) (e : α), ∀ x ∈ e :: rest,
      le (rest.foldl (fun acc y => if le acc y then acc else y) e) x = true := by
  intro rest
  induction rest with
  | nil =>
    intro e x hx
    rw [List.mem_singleton] at hx
    subst hx
    rcases htot x x with h | h <;> exact h
  | cons r t ih =>
    intro e x hx
    rw [List.foldl_cons]
    have he'le : ∀ y, y = e ∨ y = r → le (if le e r then e else r) y = true := by
      intro y hy
      by_cases hc : le e r
      · rw [if_pos hc]
        rcases hy with rfl | rfl
        · rcases htot y y with h | h <;> exact h
        · exact hc
      · rw [if_neg hc]
        rcases hy with rfl | rfl
        · rcases htot y r with h | h
          · exact absurd h hc
          · exact h
        · rcases htot y y with h | h <;> exact h
    have hself := ih (if le e r then e else r) _ (List.mem_cons_self _ _)
    rcases List.mem_cons.mp hx with rfl | hx'
    · exact htrans _ _ _ hself (he'le x (Or.inl rfl))
    rcases List.mem_cons.mp hx' with rfl | hx''
    · exact htrans _ _ _ hself (he'le x (Or.inr rfl))
    · exact ih _ x (List.mem_cons_of_mem _ hx'')

theorem lexLe_total (a b : Nat × Nat) : lexLe a b = true ∨ lexLe b a = true := by
  simp only [lexLe, Bool.or_eq_true, Bool.and_eq_true, decide_eq_true_eq]
  omega

theorem lexLe_trans (a b c : Nat × Nat) :
    lexLe a b = true → lexLe b c = true → lexLe a c = true := by
  simp only [lexLe, Bool.or_eq_true, Bool.and_eq_true, decide_eq_true_eq]
  omega

theorem ble_total (a b : Nat) : Nat.ble a b = true ∨ Nat.ble b a = true := by
  simp only [Nat.ble_eq]
  omega

theorem ble_trans (a b c : Nat) :
    Nat.ble a b = true → Nat.ble b c = true → Nat.ble a c = true := by
  simp only [Nat.ble_eq]
  omega

/-- C4: for both pruners, `initialize_least_readable_version` returns `0` on
an empty primary schema; on a non-empty schema the seek yields an entry that
exists, whose key is lowest in the schema's key order, and the returned value
is the version embedded in that key. -/
theorem initialize_least_readable_version_correct {V W : Type}
    (ev : List ((Nat × Nat) × V)) (ws : List (Nat × W)) :
    (ev = [] → EventStorePruner.initializeLeastReadableVersion ev = Except.ok 0) ∧
    (ev ≠ [] → (seekToFirstEventEntry ev).isSome = true) ∧
    (∀ e, seekToFirstEventEntry ev = some e → e ∈ ev ∧
      (∀ x ∈ ev, lexLe e.1 x.1 = true) ∧
      EventStorePruner.initializeLeastReadableVersion ev = Except.ok e.1.1) ∧
    (ws = [] → WriteSetPruner.initializeLeastReadableVersion ws = Except.ok 0) ∧
    (ws ≠ [] → (seekToFirstWriteSetEntry ws).isSome = true) ∧
    (∀ p, seekToFirstWriteSetEntry ws = some p → p ∈ ws ∧
      (∀ x ∈ ws, p.1 ≤ x.1) ∧
      WriteSetPruner.initializeLeastReadableVersion ws = Except.ok p.1) := by
  refine ⟨?_, ?_, ?_, ?_, ?_, ?_⟩
  · intro h; subst h; rfl
  · intro h
    cases ev with
    | nil => exact absurd rfl h
    | cons a rest => rfl
  · intro e he
    cases ev with
    | nil => cases he
    | cons a rest =>
      simp only [seekToFirstEventEntry, Option.some.injEq] at he
      subst he
      refine ⟨foldl_choose_mem (fun p q => lexLe p.1 q.1) rest a, ?_, ?_⟩
      · intro x hx
        exact foldl_choose_le (fun p q => lexLe p.1 q.1)
          (fun p q => lexLe_total p.1 q.1)
          (fun p q r => lexLe_trans p.1 q.1 r.1) rest a x hx
      · rw [EventStorePruner.initializeLeastReadableVersion, seekToFirstEventEntry]
  · intro h; subst h; rfl
  · intro h
    cases ws with
    | nil => exact absurd rfl h
    | cons a rest => rfl
  · intro p hp
    cases ws with
    | nil => cases hp
    | cons a rest =>
      simp only [seekToFirstWriteSetEntry, Option.some.injEq] at hp
      subst hp
      refine ⟨foldl_choose_mem (fun p q => Nat.ble p.1 q.1) rest a, ?_, ?_⟩
      · intro x hx
        have := foldl_choose_le (fun p q => Nat.ble p.1 q.1)
          (fun p q => ble_total p.1 q.1)
          (fun p q r => ble_trans p.1 q.1 r.1) rest a x hx
        exact Nat.le_of_ble_eq_true this
      · rw [WriteSetPruner.initializeLeastReadableVersion, seekToFirstWriteSetEntry]

/-- Witness for C4: on the schema holding keys `(3,1)` and `(2,5)` the event
pruner recovers version `2`; on an empty write-set schema the write-set
pruner recovers `0`. -/
theorem initialize_least_readable_version_witness :
    EventStorePruner.initializeLeastReadableVersion
      [((3, 1), (0 : Nat)), ((2, 5), 0)] = Except.ok 2 ∧
    WriteSetPruner.initializeLeastReadableVersion ([] : List (Nat × Nat)) =
      Except.ok 0 :=
  ⟨((initialize_least_readable_version_correct [((3, 1), (0 : Nat)), ((2, 5), 0)]
      ([] : List (Nat × Nat))).2.2.1 ((2, 5), 0) rfl).2.2,
   (initialize_least_readable_version_correct [((3, 1), (0 : Nat)), ((2, 5), 0)]
      ([] : List (Nat × Nat))).2.2.2.1 rfl⟩

end Claim4

section Claim5

/-- Counterexample to C5: the gauge label used by `record_progress` is not
the string returned by `name()` — for the event pruner it is `"event_store"`
while `name()` is `"event store pruner"`, and for the write-set pruner it is
`"write_set"` while `name()` is `"transaction store pruner"`. -/
theorem gauge_label_counterexample :
    (EventStorePruner.recordProgress ⟨0, 0⟩ 1).2.label ≠ EventStorePruner.name ∧
    (WriteSetPruner.recordProgress ⟨0, 0⟩ 1).2.label ≠ WriteSetPruner.name := by
  exact ⟨by decide, by decide⟩

/-- C5 (amended): `record_progress` publishes the new low-water mark to the
gauge under a fixed per-pruner label — `"event_store"` for the event store
pruner and `"write_set"` for the write-set pruner — which differs from the
`name()` string; the in-memory field is updated to the recorded version. -/
theorem gauge_label_fixed (s : PrunerState) (v : Nat) :
    (EventStorePruner.recordProgress s v).2.label = "event_store" ∧
    (EventStorePruner.recordProgress s v).1.least_readable_version = v ∧
    (EventStorePruner.recordProgress s v).2.value = i64OfU64 v ∧
    (WriteSetPruner.recordProgress s v).2.label = "write_set" ∧
    (WriteSetPruner.recordProgress s v).1.least_readable_version = v ∧
    (WriteSetPruner.recordProgress s v).2.value = i64OfU64 v :=
  ⟨rfl, rfl, rfl, rfl, rfl, rfl⟩

end Claim5

section Claim8

/-- C8: on any state, `WriteSetPruner::prune` enqueues exactly one deletion
call covering `[least_readable_version, current_batch_target)`, commits that
one-call batch, returns the batch target and records it as the new low-water
mark; in the scenario low-water `0`, target `10`, `max_versions` `100` the
batch target is clamped to `10` and the low-water mark afterwards is `10`. -/
theorem write_set_prune_single_call (s : PrunerState) (mv : Nat) :
    WriteSetPruner.prune writeSetDefaultEnv s mv =
      (Except.ok (getCurrrentBatchTarget s mv,
        [WriteSetOp.deleteRange s.least_readable_version (getCurrrentBatchTarget s mv)]),
       { s with least_readable_version := getCurrrentBatchTarget s mv }) ∧
    getCurrrentBatchTarget s mv =
      min (s.least_readable_version + mv) s.target_version ∧
    getCurrrentBatchTarget ⟨10, 0⟩ 100 = 10 ∧
    WriteSetPruner.prune writeSetDefaultEnv ⟨10, 0⟩ 100 =
      (Except.ok (10, [WriteSetOp.deleteRange 0 10]), ⟨10, 10⟩) :=
  ⟨rfl, rfl, rfl, rfl⟩

end Claim8

section EvalLemmas

theorem sub64_of_le {a b : Nat} (h : a ≤ b) (hb : b - a < 2 ^ 64) :
    sub64 b a = b - a := by
  rw [sub64]
  have h1 : 2 ^ 64 + b - a = 2 ^ 64 + (b - a) := by omega
  rw [h1, Nat.add_mod_left, Nat.mod_eq_of_lt hb]

theorem flatten_of_all_nil {α : Type} (l : List Nat) (store : Nat → List α)
    (h : ∀ v ∈ l, store v = []) : (l.map store).flatten = [] := by
  induction l with
  | nil => rfl
  | cons a t ih =>
    rw [List.map_cons, List.flatten_cons, h a (List.mem_cons_self _ _),
      List.nil_append]
    exact ih fun v hv => h v (List.mem_cons_of_mem _ hv)

/-- Evaluation of `EventStorePruner.prune` over a store with no events in the
batch range: the scan succeeds with an empty candidate list, the batch holds
exactly the accumulator-range and schema-range deletions, and progress is
recorded at the batch target. -/
theorem event_prune_default_eval (store : Nat → List ContractEvent)
    (s : PrunerState) (mv : Nat)
    (hle : s.least_readable_version ≤ getCurrrentBatchTarget s mv)
    (hbnd : getCurrrentBatchTarget s mv - s.least_readable_version < 2 ^ 64)
    (hempty : ∀ v, s.least_readable_version ≤ v →
      v < getCurrrentBatchTarget s mv → store v = []) :
    EventStorePruner.prune (eventEnvOfStore store) s mv =
      (Except.ok (getCurrrentBatchTarget s mv,
        (List.range' s.least_readable_version
          (getCurrrentBatchTarget s mv - s.least_readable_version)).map
            EventBatchOp.deleteAccumulatorEntry ++
        (List.range' s.least_readable_version
          (getCurrrentBatchTarget s mv - s.least_readable_version)).map
            EventBatchOp.deleteSchemaEntry),
       { s with least_readable_version := getCurrrentBatchTarget s mv }) := by
  have hcand : EventStorePruner.getPruningCandidateEvents (eventEnvOfStore store)
      s.least_readable_version (getCurrrentBatchTarget s mv) = Except.ok [] := by
    rw [EventStorePruner.getPruningCandidateEvents]
    show Except.ok ((List.range' s.least_readable_version
      (sub64 (getCurrrentBatchTarget s mv) s.least_readable_version)).map store).flatten = _
    rw [sub64_of_le hle hbnd]
    rw [flatten_of_all_nil _ store]
    intro v hv
    rw [List.mem_range'_1] at hv
    exact hempty v hv.1 (by omega)
  rw [EventStorePruner.prune, hcand]
  simp [eventEnvOfStore, pruneEventsByVersionModel, pruneEventsByKeyModel,
    pruneEventAccumulatorModel, pruneEventSchemaModel, sequenceRangesList,
    sequenceRangeByEventKeys, EventStorePruner.recordProgress]

end EvalLemmas

section Claim6

/-- C6: when the pruner is caught up (`least_readable_version ==
target_version`), `prune` with any `max_versions` succeeds, returns the
unchanged low-water mark, leaves the state exactly as it was, and the
committed batch enqueues no deletion: the event-store batch is empty and the
single write-set range call covers an empty version range. -/
theorem prune_idempotent_at_rest (store : Nat → List ContractEvent)
    (sE sW : PrunerState) (mvE mvW : Nat)
    (hE : sE.least_readable_version = sE.target_version)
    (hW : sW.least_readable_version = sW.target_version) :
    EventStorePruner.prune (eventEnvOfStore store) sE mvE =
      (Except.ok (sE.least_readable_version, []), sE) ∧
    WriteSetPruner.prune writeSetDefaultEnv sW mvW =
      (Except.ok (sW.least_readable_version,
        [WriteSetOp.deleteRange sW.least_readable_version sW.least_readable_version]),
       sW) ∧
    (WriteSetOp.deleteRange sW.least_readable_version
      sW.least_readable_version).deletedVersions = [] := by
  have htE : getCurrrentBatchTarget sE mvE = sE.least_readable_version := by
    rw [getCurrrentBatchTarget]; omega
  have htW : getCurrrentBatchTarget sW mvW = sW.least_readable_version := by
    rw [getCurrrentBatchTarget]; omega
  refine ⟨?_, ?_, ?_⟩
  · have := event_prune_default_eval store sE mvE (by omega)
      (by omega) (fun v h1 h2 => absurd h2 (by rw [htE]; omega))
    rw [this, htE]
    simp
  · rw [WriteSetPruner.prune, htW]
    simp [writeSetDefaultEnv, pruneWriteSetModel, WriteSetPruner.recordProgress]
  · rw [WriteSetOp.deletedVersions]
    simp

/-- Witness for C6: at state `(target 5, low-water 5)` both pruners are
no-ops with empty-effect batches. -/
theorem prune_idempotent_at_rest_witness :
    EventStorePruner.prune (eventEnvOfStore (fun _ => [])) ⟨5, 5⟩ 7 =
      (Except.ok (5, []), (⟨5, 5⟩ : PrunerState)) ∧
    WriteSetPruner.prune writeSetDefaultEnv ⟨5, 5⟩ 7 =
      (Except.ok (5, [WriteSetOp.deleteRange 5 5]), (⟨5, 5⟩ : PrunerState)) ∧
    (WriteSetOp.deleteRange 5 5).deletedVersions = [] :=
  prune_idempotent_at_rest (fun _ => []) ⟨5, 5⟩ ⟨5, 5⟩ 7 7 rfl rfl

end Claim6

section Claim7

/-- C7: over a non-empty batch range `[start, end)` in which the store holds
no events, `EventStorePruner::prune` still succeeds, commits the well-formed
batch of accumulator-range and schema-range deletions, and still advances
the low-water mark to `end`: progress is version-driven, not
event-count-driven. -/
theorem event_prune_empty_candidates (store : Nat → List ContractEvent)
    (s : PrunerState) (mv : Nat)
    (hne : s.least_readable_version < getCurrrentBatchTarget s mv)
    (htb : s.target_version < 2 ^ 64)
    (hempty : ∀ v, s.least_readable_version ≤ v →
      v < getCurrrentBatchTarget s mv → store v = []) :
    EventStorePruner.prune (eventEnvOfStore store) s mv =
      (Except.ok (getCurrrentBatchTarget s mv,
        (List.range' s.least_readable_version
          (getCurrrentBatchTarget s mv - s.least_readable_version)).map
            EventBatchOp.deleteAccumulatorEntry ++
        (List.range' s.least_readable_version
          (getCurrrentBatchTarget s mv - s.least_readable_version)).map
            EventBatchOp.deleteSchemaEntry),
       { s with least_readable_version := getCurrrentBatchTarget s mv }) ∧
    (EventStorePruner.prune (eventEnvOfStore store) s mv).2.least_readable_version =
      getCurrrentBatchTarget s mv := by
  have hmin : getCurrrentBatchTarget s mv ≤ s.target_version :=
    min_le_right _ _
  have heval := event_prune_default_eval store s mv (le_of_lt hne)
    (by omega) hempty
  exact ⟨heval, by rw [heval]⟩

/-- Witness for C7: an empty store, low-water `0`, target `10`, step `4`:
the call succeeds, commits the eight range deletions for versions `0..3`,
and advances the low-water mark to `4`. -/
theorem event_prune_empty_candidates_witness :
    EventStorePruner.prune (eventEnvOfStore (fun _ => [])) ⟨10, 0⟩ 4 =
      (Except.ok (4,
        [EventBatchOp.deleteAccumulatorEntry 0, EventBatchOp.deleteAccumulatorEntry 1,
         EventBatchOp.deleteAccumulatorEntry 2, EventBatchOp.deleteAccumulatorEntry 3,
         EventBatchOp.deleteSchemaEntry 0, EventBatchOp.deleteSchemaEntry 1,
         EventBatchOp.deleteSchemaEntry 2, EventBatchOp.deleteSchemaEntry 3]),
       (⟨10, 4⟩ : PrunerState)) ∧
    (EventStorePruner.prune (eventEnvOfStore (fun _ => [])) ⟨10, 0⟩ 4).2.least_readable_version = 4 :=
  event_prune_empty_candidates (fun _ => []) ⟨10, 0⟩ 4 (by decide) (by decide)
    (fun v h1 h2 => rfl)

end Claim7

section Claim9

theorem event_prune_lrv_le (env : EventStoreEnv) (s : PrunerState) (mv : Nat)
    (h : s.least_readable_version ≤ s.target_version) :
    s.least_readable_version ≤
      (EventStorePruner.prune env s mv).2.least_readable_version := by
  rcases event_prune_shape env s mv with ⟨_, hstate⟩ | ⟨b, hok⟩
  · rw [hstate]
  · rw [hok]
    show s.least_readable_version ≤ getCurrrentBatchTarget s mv
    rw [getCurrrentBatchTarget]; omega

theorem write_set_prune_lrv_le (env : WriteSetEnv) (s : PrunerState) (mv : Nat)
    (h : s.least_readable_version ≤ s.target_version) :
    s.least_readable_version ≤
      (WriteSetPruner.prune env s mv).2.least_readable_version := by
  rcases write_set_prune_shape env s mv with ⟨_, hstate⟩ | ⟨b, hok⟩
  · rw [hstate]
  · rw [hok]
    show s.least_readable_version ≤ getCurrrentBatchTarget s mv
    rw [getCurrrentBatchTarget]; omega

theorem runEventPrunes_mono (env : EventStoreEnv) :
    ∀ (steps : List (Nat × Nat)) (s : PrunerState),
      validEventRun env s steps = true →
      s.least_readable_version ≤
        (runEventPrunes env s steps).least_readable_version := by
  intro steps
  induction steps with
  | nil => intro s _; exact le_refl _
  | cons p rest ih =>
    intro s hv
    obtain ⟨tv, mv⟩ := p
    rw [validEventRun, Bool.and_eq_true] at hv
    obtain ⟨h1, h2⟩ := hv
    have hstep := event_prune_lrv_le env (setTargetVersion s tv) mv
      (Nat.le_of_ble_eq_true h1)
    exact le_trans hstep (ih _ h2)

theorem runWriteSetPrunes_mono (env : WriteSetEnv) :
    ∀ (steps : List (Nat × Nat)) (s : PrunerState),
      validWriteSetRun env s steps = true →
      s.least_readable_version ≤
        (runWriteSetPrunes env s steps).least_readable_version := by
  intro steps
  induction steps with
  | nil => intro s _; exact le_refl _
  | cons p rest ih =>
    intro s hv
    obtain ⟨tv, mv⟩ := p
    rw [validWriteSetRun, Bool.and_eq_true] at hv
    obtain ⟨h1, h2⟩ := hv
    have hstep := write_set_prune_lrv_le env (setTargetVersion s tv) mv
      (Nat.le_of_ble_eq_true h1)
    exact le_trans hstep (ih _ h2)

theorem runEventPrunes_append (env : EventStoreEnv) :
    ∀ (a b : List (Nat × Nat)) (s : PrunerState),
      runEventPrunes env s (a ++ b) = runEventPrunes env (runEventPrunes env s a) b := by
  intro a
  induction a with
  | nil => intro b s; rfl
  | cons p rest ih =>
    intro b s
    obtain ⟨tv, mv⟩ := p
    rw [List.cons_append, runEventPrunes, runEventPrunes, ih]

theorem runWriteSetPrunes_append (env : WriteSetEnv) :
    ∀ (a b : List (Nat × Nat)) (s : PrunerState),
      runWriteSetPrunes env s (a ++ b) =
        runWriteSetPrunes env (runWriteSetPrunes env s a) b := by
  intro a
  induction a with
  | nil => intro b s; rfl
  | cons p rest ih =>
    intro b s
    obtain ⟨tv, mv⟩ := p
    rw [List.cons_append, runWriteSetPrunes, runWriteSetPrunes, ih]

theorem validEventRun_append (env : EventStoreEnv) :
    ∀ (a b : List (Nat × Nat)) (s : PrunerState),
      validEventRun env s (a ++ b) = true →
      validEventRun env (runEventPrunes env s a) b = true := by
  intro a
  induction a with
  | nil => intro b s h; exact h
  | cons p rest ih =>
    intro b s h
    obtain ⟨tv, mv⟩ := p
    rw [List.cons_append, validEventRun, Bool.and_eq_true] at h
    exact ih b _ h.2

theorem validWriteSetRun_append (env : WriteSetEnv) :
    ∀ (a b : List (Nat × Nat)) (s : PrunerState),
      validWriteSetRun env s (a ++ b) = true →
      validWriteSetRun env (runWriteSetPrunes env s a) b = true := by
  intro a
  induction a with
  | nil => intro b s h; exact h
  | cons p rest ih =>
    intro b s h
    obtain ⟨tv, mv⟩ := p
    rw [List.cons_append, validWriteSetRun, Bool.and_eq_true] at h
    exact ih b _ h.2

/-- C9: across any driver run in which every step keeps the invariant
`least_readable_version ≤ target_version` at call time, the low-water mark
is non-decreasing: after any prefix of the run it is at most its value after
the full run — for both pruners, whatever the environments do (a failed call
leaves it unchanged, a successful commit only raises it). -/
theorem pruner_monotonic (envE : EventStoreEnv) (envW : WriteSetEnv)
    (sE sW : PrunerState) (preE postE preW postW : List (Nat × Nat))
    (hE : validEventRun envE sE (preE ++ postE) = true)
    (hW : validWriteSetRun envW sW (preW ++ postW) = true) :
    (runEventPrunes envE sE preE).least_readable_version ≤
      (runEventPrunes envE sE (preE ++ postE)).least_readable_version ∧
    (runWriteSetPrunes envW sW preW).least_readable_version ≤
      (runWriteSetPrunes envW sW (preW ++ postW)).least_readable_version := by
  constructor
  · rw [runEventPrunes_append]
    exact runEventPrunes_mono envE postE _ (validEventRun_append envE preE postE sE hE)
  · rw [runWriteSetPrunes_append]
    exact runWriteSetPrunes_mono envW postW _
      (validWriteSetRun_append envW preW postW sW hW)

/-- Witness for C9: a two-step run on each pruner (targets 5 then 7) from
low-water 0: the mark after the first step (3) is at most the mark after
both steps (7). -/
theorem pruner_monotonic_witness :
    (runEventPrunes (eventEnvOfStore (fun _ => [])) ⟨0, 0⟩
      [(5, 3)]).least_readable_version ≤
      (runEventPrunes (eventEnvOfStore (fun _ => [])) ⟨0, 0⟩
        ([(5, 3)] ++ [(7, 10)])).least_readable_version ∧
    (runWriteSetPrunes writeSetDefaultEnv ⟨0, 0⟩
      [(5, 3)]).least_readable_version ≤
      (runWriteSetPrunes writeSetDefaultEnv ⟨0, 0⟩
        ([(5, 3)] ++ [(7, 10)])).least_readable_version :=
  pruner_monotonic (eventEnvOfStore (fun _ => [])) writeSetDefaultEnv
    ⟨0, 0⟩ ⟨0, 0⟩ [(5, 3)] [(7, 10)] [(5, 3)] [(7, 10)] rfl rfl

end Claim9

section Claim10

/-- C10: the candidate-scan count `(end - start) as usize` in
`get_pruning_candidate_events` is the true range length exactly under the
invariant `least_readable_version ≤ target_version`; if the target is ever
below the low-water mark, the `u64` subtraction underflows and yields the
huge value `2^64 - (lrv - target)` instead of an empty scan. -/
theorem candidate_count_underflow (s : PrunerState) (mv : Nat)
    (hlb : s.least_readable_version < 2 ^ 64)
    (htb : s.target_version < 2 ^ 64) :
    (s.least_readable_version ≤ s.target_version →
      sub64 (getCurrrentBatchTarget s mv) s.least_readable_version =
        getCurrrentBatchTarget s mv - s.least_readable_version) ∧
    (s.target_version < s.least_readable_version →
      getCurrrentBatchTarget s mv < s.least_readable_version ∧
      sub64 (getCurrrentBatchTarget s mv) s.least_readable_version =
        2 ^ 64 - (s.least_readable_version - s.target_version) ∧
      sub64 (getCurrrentBatchTarget s mv) s.least_readable_version ≠ 0) := by
  constructor
  · intro hle
    have h1 : s.least_readable_version ≤ getCurrrentBatchTarget s mv := by
      rw [getCurrrentBatchTarget]; omega
    have h2 : getCurrrentBatchTarget s mv - s.least_readable_version < 2 ^ 64 := by
      have := min_le_right (s.least_readable_version + mv) s.target_version
      rw [getCurrrentBatchTarget]; omega
    exact sub64_of_le h1 h2
  · intro hlt
    have ht : getCurrrentBatchTarget s mv = s.target_version := by
      rw [getCurrrentBatchTarget]; omega
    have hv : 2 ^ 64 + s.target_version - s.least_readable_version =
        2 ^ 64 - (s.least_readable_version - s.target_version) := by omega
    have hb : 2 ^ 64 - (s.least_readable_version - s.target_version) < 2 ^ 64 := by omega
    refine ⟨by omega, ?_, ?_⟩
    · rw [ht, sub64, hv, Nat.mod_eq_of_lt hb]
    · rw [ht, sub64, hv, Nat.mod_eq_of_lt hb]
      omega

/-- Witness for C10: with low-water 5 and target 2 (invariant broken), the
scan count is `2^64 - 3`, not 0; with the invariant restored the count is
the range length. -/
theorem candidate_count_underflow_witness :
    ((5 : Nat) ≤ 2 →
      sub64 (getCurrrentBatchTarget ⟨2, 5⟩ 1) 5 = getCurrrentBatchTarget ⟨2, 5⟩ 1 - 5) ∧
    ((2 : Nat) < 5 →
      getCurrrentBatchTarget ⟨2, 5⟩ 1 < 5 ∧
      sub64 (getCurrrentBatchTarget ⟨2, 5⟩ 1) 5 = 2 ^ 64 - 3 ∧
      sub64 (getCurrrentBatchTarget ⟨2, 5⟩ 1) 5 ≠ 0) :=
  candidate_count_underflow ⟨2, 5⟩ 1 (by decide) (by decide)

end Claim10

end AptosPruner
